import Mathlib

/-!
Verification of the SWCaffe slave scale kernel
(`src/caffe/swutil/slave/sw_slave_sscal.c`).

The file shallowly embeds the kernel: global memory is a total map
`Nat → F` over an abstract element type `F`; the platform's native
floating-point multiply is an abstract binary operation `fmul : F → F → F`
applied exactly where the C code applies it (`local_src[i] * alpha`, and
lane-wise `vsrc * valpha` in the SIMD path).  Local-store (LDM) staging
buffers are bounds-checked: every access is `Option`-valued and returns
`none` on an out-of-range index, so a kernel run that returns `some` has
performed no out-of-bounds staging access.  Loops carry explicit fuel
(each caller passes fuel strictly larger than the iteration count, proved
sufficient in the lemmas), so all definitions compute by kernel reduction.

Concrete witnesses instantiate `F` with `Int`: the scenarios in the spec
use small integer values, on which IEEE-754 single-precision arithmetic
is exact, so integer multiplication models the native multiply faithfully
there.
-/

namespace SWSscal

/-- Source line 95: for the single-precision kernel, `#define BUFFSIZE 4*1024`
(number of floats in one LDM staging buffer). -/
def BUFFSIZE : Nat := 4 * 1024

/-- Source line 6: `#define SIMDSIZE 4` (lanes of a `floatv4`). -/
def SIMDSIZE : Nat := 4

/-- Source line 9: `#define SPNUM 64`, the fixed slave-core population. -/
def SPNUM : Nat := 64

/-- Source line 102: `local_count = count/SPNUM + (id<(count%SPNUM))`.
C integer division on the nonnegative ranges the kernel is run on is `Nat`
division, and the comparison contributes `1` when true, `0` when false. -/
def localCount (count id : Nat) : Nat :=
  count / SPNUM + (if id < count % SPNUM then 1 else 0)

/-- Source line 103:
`start = id*(count/SPNUM) + (id<(count%SPNUM)?id:(count%SPNUM))`. -/
def startOffset (count id : Nat) : Nat :=
  id * (count / SPNUM) + (if id < count % SPNUM then id else count % SPNUM)

/-- Per-worker machine state threaded through the kernel: the two LDM
staging buffers (`lsrc` = `local_src`, `ldst` = `local_dst`), the global
destination vector, and counters of issued DMA get/put transfers. -/
structure KState (F : Type) where
  lsrc : Nat → F
  ldst : Nat → F
  gdst : Nat → F
  gets : Nat
  puts : Nat

variable {F : Type}

/-- Bounds-checked read of an LDM staging buffer (capacity `BUFFSIZE`
elements, source lines 97-98). -/
def ldmRead (buf : Nat → F) (i : Nat) : Option F :=
  if i < BUFFSIZE then some (buf i) else none

/-- Pointwise update of a staging buffer. -/
def updBuf (buf : Nat → F) (i : Nat) (v : F) : Nat → F :=
  fun j => if j = i then v else buf j

/-- Bounds-checked write to an LDM staging buffer. -/
def ldmWrite (buf : Nat → F) (i : Nat) (v : F) : Option (Nat → F) :=
  if i < BUFFSIZE then some (updBuf buf i v) else none

/-- DMA get (source lines 127-128 / 143-144): copy `len` contiguous
elements of global memory starting at `base` into the front of a staging
buffer; the transfer must fit in the buffer. -/
def dmaGet (glob : Nat → F) (base len : Nat) (buf : Nat → F) : Option (Nat → F) :=
  if len ≤ BUFFSIZE then
    some (fun k => if k < len then glob (base + k) else buf k)
  else none

/-- DMA put (source lines 137-138 / 156-157): copy the first `len` elements
of a staging buffer into global memory starting at `base`. -/
def dmaPut (buf : Nat → F) (base len : Nat) (glob : Nat → F) : Option (Nat → F) :=
  if len ≤ BUFFSIZE then
    some (fun j => if base ≤ j ∧ j < base + len then buf (j - base) else glob j)
  else none

/-- One SIMD group (source lines 131-133 / 147-149): `simd_load` of four
consecutive lanes `local_src[i..i+3]`, lane-wise multiply by the broadcast
scalar (`vsrc * valpha`, i.e. element times alpha), `simd_store` into
`local_dst[i..i+3]`. -/
def simdStep (fmul : F → F → F) (alpha : F) (lsrc ldst : Nat → F) (i : Nat) :
    Option (Nat → F) :=
  (ldmRead lsrc i).bind fun a =>
  (ldmRead lsrc (i + 1)).bind fun b =>
  (ldmRead lsrc (i + 2)).bind fun c =>
  (ldmRead lsrc (i + 3)).bind fun e =>
  (ldmWrite ldst i (fmul a alpha)).bind fun d1 =>
  (ldmWrite d1 (i + 1) (fmul b alpha)).bind fun d2 =>
  (ldmWrite d2 (i + 2) (fmul c alpha)).bind fun d3 =>
  ldmWrite d3 (i + 3) (fmul e alpha)

/-- Source line 130: `for(i=0; i<BUFFSIZE; i+=SIMDSIZE)` — the SIMD loop of
the full-chunk path. -/
def simdLoopFull (fmul : F → F → F) (alpha : F) (lsrc : Nat → F) :
    Nat → Nat → (Nat → F) → Option (Nat → F)
  | 0, _, _ => none
  | fuel + 1, i, ldst =>
    if i < BUFFSIZE then
      (simdStep fmul alpha lsrc ldst i).bind fun ldst1 =>
        simdLoopFull fmul alpha lsrc fuel (i + SIMDSIZE) ldst1
    else some ldst

/-- Source line 146: `for(i=0; i+SIMDSIZE-1<local_count-off; i+=SIMDSIZE)` —
the SIMD loop of the tail path; returns the buffer together with the exit
value of `i`, which the scalar cleanup loop continues from. -/
def simdLoopTail (fmul : F → F → F) (alpha : F) (lsrc : Nat → F) (rem : Nat) :
    Nat → Nat → (Nat → F) → Option ((Nat → F) × Nat)
  | 0, _, _ => none
  | fuel + 1, i, ldst =>
    if i + SIMDSIZE - 1 < rem then
      (simdStep fmul alpha lsrc ldst i).bind fun ldst1 =>
        simdLoopTail fmul alpha lsrc rem fuel (i + SIMDSIZE) ldst1
    else some (ldst, i)

/-- Source lines 151-153: `for(; i<local_count-off; i++)
local_dst[i] = local_src[i] * alpha;` — scalar cleanup of the tail. -/
def scalarLoop (fmul : F → F → F) (alpha : F) (lsrc : Nat → F) (rem : Nat) :
    Nat → Nat → (Nat → F) → Option (Nat → F)
  | 0, _, _ => none
  | fuel + 1, i, ldst =>
    if i < rem then
      (ldmRead lsrc i).bind fun a =>
      (ldmWrite ldst i (fmul a alpha)).bind fun ldst1 =>
        scalarLoop fmul alpha lsrc rem fuel (i + 1) ldst1
    else some ldst

/-- Source lines 124-159: the chunk loop of `sw_slave_sscal_f`.  While a
full `BUFFSIZE` chunk remains (`off+BUFFSIZE-1 < local_count`): DMA-get the
chunk, SIMD-multiply it, DMA-put it, advance `off` by `BUFFSIZE`.  Then, if
a partial chunk remains (`off < local_count`), resize both transfers to
`local_count-off`, DMA-get, run the tail SIMD loop plus the scalar cleanup,
and DMA-put.  `start` and `lc` are this worker's partition. -/
def chunkLoop (fmul : F → F → F) (alpha : F) (gsrc : Nat → F) (start lc : Nat) :
    Nat → Nat → KState F → Option (KState F)
  | 0, _, _ => none
  | fuel + 1, off, st =>
    if off + BUFFSIZE - 1 < lc then
      (dmaGet gsrc (start + off) BUFFSIZE st.lsrc).bind fun lsrc1 =>
      (simdLoopFull fmul alpha lsrc1 (BUFFSIZE + 1) 0 st.ldst).bind fun ldst1 =>
      (dmaPut ldst1 (start + off) BUFFSIZE st.gdst).bind fun gdst1 =>
        chunkLoop fmul alpha gsrc start lc fuel (off + BUFFSIZE)
          ⟨lsrc1, ldst1, gdst1, st.gets + 1, st.puts + 1⟩
    else if off < lc then
      (dmaGet gsrc (start + off) (lc - off) st.lsrc).bind fun lsrc1 =>
      (simdLoopTail fmul alpha lsrc1 (lc - off) (BUFFSIZE + 1) 0 st.ldst).bind fun p =>
      (scalarLoop fmul alpha lsrc1 (lc - off) (BUFFSIZE + 1) p.2 p.1).bind fun ldst1 =>
      (dmaPut ldst1 (start + off) (lc - off) st.gdst).bind fun gdst1 =>
        some ⟨lsrc1, ldst1, gdst1, st.gets + 1, st.puts + 1⟩
    else some st

/-- Source lines 96-163: `sw_slave_sscal_f` run by slave core `id`.
`gsrc`/`gdst` are the global vectors `para->src`/`para->dst`, `lsrc0` and
`ldst0` the arbitrary initial contents of the freshly `ldm_malloc`ed
staging buffers, `alpha` the scalar `para->alpha.f` and `count`
`para->count`.  The worker derives its partition (lines 102-103) and runs
the chunk loop from `off = 0` with fuel `localCount + 1`, which the spec
lemmas prove sufficient. -/
def sw_slave_sscal_f (fmul : F → F → F) (alpha : F) (id count : Nat)
    (gsrc lsrc0 ldst0 gdst : Nat → F) : Option (KState F) :=
  chunkLoop fmul alpha gsrc (startOffset count id) (localCount count id)
    (localCount count id + 1) 0 ⟨lsrc0, ldst0, gdst, 0, 0⟩

/-- Source lines 25-93: `sw_slave_sscal_d`.  The entire function body
(lines 26-92) is enclosed in a block comment `/* ... */`, so the compiled
function performs no operation whatsoever: no buffers, no DMA transfers,
the destination is untouched. -/
def sw_slave_sscal_d (fmul : F → F → F) (alpha : F) (id count : Nat)
    (gsrc lsrc0 ldst0 gdst : Nat → F) : Option (KState F) :=
  let _ := fmul
  let _ := alpha
  let _ := id
  let _ := count
  let _ := gsrc
  some ⟨lsrc0, ldst0, gdst, 0, 0⟩

/-- Run workers `0, 1, ..., k-1` in sequence, threading the global
destination vector.  The 64 slave cores execute in parallel on pairwise
disjoint destination ranges (proved below), so the sequential order is
semantically irrelevant; each worker reads the same read-only `gsrc` and
receives fresh staging buffers. -/
def runUpTo (fmul : F → F → F) (alpha : F) (count : Nat)
    (gsrc lsrc0 ldst0 : Nat → F) : Nat → (Nat → F) → Option (Nat → F)
  | 0, gdst => some gdst
  | k + 1, gdst =>
    (runUpTo fmul alpha count gsrc lsrc0 ldst0 k gdst).bind fun d =>
      (sw_slave_sscal_f fmul alpha k count gsrc lsrc0 ldst0 d).map KState.gdst

/-- One whole invocation of the single-precision kernel: all `SPNUM`
slave cores run `sw_slave_sscal_f` on the shared descriptor. -/
def runAll (fmul : F → F → F) (alpha : F) (count : Nat)
    (gsrc lsrc0 ldst0 gdst : Nat → F) : Option (Nat → F) :=
  runUpTo fmul alpha count gsrc lsrc0 ldst0 SPNUM gdst

/-! ## Partition arithmetic -/

lemma startOffset_zero (count : Nat) : startOffset count 0 = 0 := by
  simp only [startOffset, Nat.zero_mul]
  split_ifs <;> omega

lemma startOffset_succ (count id : Nat) :
    startOffset count (id + 1) = startOffset count id + localCount count id := by
  simp only [startOffset, localCount, add_one_mul]
  split_ifs <;> omega

lemma startOffset_mono (count : Nat) :
    ∀ a b : Nat, a ≤ b → startOffset count a ≤ startOffset count b := by
  intro a b hab
  induction b, hab using Nat.le_induction with
  | base => exact Nat.le_refl _
  | succ b hab ih =>
    rw [startOffset_succ]
    omega

lemma startOffset_spnum (count : Nat) : startOffset count SPNUM = count := by
  simp only [startOffset, SPNUM]
  split_ifs <;> omega

/-! ## Loop specifications -/

lemma simdStep_spec (fmul : F → F → F) (alpha : F) (lsrc ldst : Nat → F) (i : Nat)
    (h : i + 3 < BUFFSIZE) :
    ∃ d, simdStep fmul alpha lsrc ldst i = some d ∧
      ∀ j, d j = if i ≤ j ∧ j < i + 4 then fmul (lsrc j) alpha else ldst j := by
  have h0 : i < BUFFSIZE := by omega
  have h1 : i + 1 < BUFFSIZE := by omega
  have h2 : i + 2 < BUFFSIZE := by omega
  refine ⟨updBuf (updBuf (updBuf (updBuf ldst i (fmul (lsrc i) alpha))
      (i + 1) (fmul (lsrc (i + 1)) alpha))
      (i + 2) (fmul (lsrc (i + 2)) alpha))
      (i + 3) (fmul (lsrc (i + 3)) alpha), ?_, ?_⟩
  · simp only [simdStep, ldmRead, ldmWrite, h0, h1, h2, h, if_true, Option.some_bind]
  · intro j
    simp only [updBuf]
    split_ifs <;> first | rfl | omega | simp_all

lemma simdLoopFull_spec (fmul : F → F → F) (alpha : F) (lsrc : Nat → F) :
    ∀ fuel i ldst, 4 ∣ i → i ≤ BUFFSIZE → BUFFSIZE - i < fuel →
    ∃ d, simdLoopFull fmul alpha lsrc fuel i ldst = some d ∧
      ∀ j, d j = if i ≤ j ∧ j < BUFFSIZE then fmul (lsrc j) alpha else ldst j := by
  intro fuel
  induction fuel with
  | zero => intro i ldst _ _ hf; omega
  | succ fuel ih =>
    intro i ldst hdvd hle hf
    have hB : BUFFSIZE = 4096 := rfl
    simp only [simdLoopFull, SIMDSIZE]
    by_cases hi : i < BUFFSIZE
    · rw [if_pos hi]
      obtain ⟨d0, hd0, hd0j⟩ := simdStep_spec fmul alpha lsrc ldst i (by omega)
      rw [hd0, Option.some_bind]
      obtain ⟨d, hd, hdj⟩ := ih (i + 4) d0 (by omega) (by omega) (by omega)
      refine ⟨d, hd, fun j => ?_⟩
      rw [hdj j, hd0j j]
      split_ifs <;> first | rfl | omega
    · rw [if_neg hi]
      refine ⟨ldst, rfl, fun j => ?_⟩
      split_ifs <;> first | rfl | omega

lemma simdLoopTail_spec (fmul : F → F → F) (alpha : F) (lsrc : Nat → F) (rem : Nat)
    (hrem : rem ≤ BUFFSIZE) :
    ∀ fuel i ldst, i ≤ rem → rem - i < fuel →
    ∃ d i2, simdLoopTail fmul alpha lsrc rem fuel i ldst = some (d, i2) ∧
      i ≤ i2 ∧ i2 ≤ rem ∧
      ∀ j, d j = if i ≤ j ∧ j < i2 then fmul (lsrc j) alpha else ldst j := by
  intro fuel
  induction fuel with
  | zero => intro i ldst _ hf; omega
  | succ fuel ih =>
    intro i ldst hi hf
    have hB : BUFFSIZE = 4096 := rfl
    simp only [simdLoopTail, SIMDSIZE]
    by_cases hc : i + 4 - 1 < rem
    · rw [if_pos hc]
      obtain ⟨d0, hd0, hd0j⟩ := simdStep_spec fmul alpha lsrc ldst i (by omega)
      rw [hd0, Option.some_bind]
      obtain ⟨d, i2, hd, hi2a, hi2b, hdj⟩ := ih (i + 4) d0 (by omega) (by omega)
      refine ⟨d, i2, hd, by omega, hi2b, fun j => ?_⟩
      rw [hdj j, hd0j j]
      split_ifs <;> first | rfl | omega
    · rw [if_neg hc]
      refine ⟨ldst, i, rfl, Nat.le_refl i, hi, fun j => ?_⟩
      split_ifs <;> first | rfl | omega

lemma scalarLoop_spec (fmul : F → F → F) (alpha : F) (lsrc : Nat → F) (rem : Nat)
    (hrem : rem ≤ BUFFSIZE) :
    ∀ fuel i ldst, rem - i < fuel →
    ∃ d, scalarLoop fmul alpha lsrc rem fuel i ldst = some d ∧
      ∀ j, d j = if i ≤ j ∧ j < rem then fmul (lsrc j) alpha else ldst j := by
  intro fuel
  induction fuel with
  | zero => intro i ldst hf; omega
  | succ fuel ih =>
    intro i ldst hf
    have hB : BUFFSIZE = 4096 := rfl
    simp only [scalarLoop]
    by_cases hc : i < rem
    · rw [if_pos hc]
      have hib : i < BUFFSIZE := by omega
      simp only [ldmRead, ldmWrite, hib, if_true, Option.some_bind]
      obtain ⟨d, hd, hdj⟩ := ih (i + 1) (updBuf ldst i (fmul (lsrc i) alpha)) (by omega)
      refine ⟨d, hd, fun j => ?_⟩
      rw [hdj j]
      simp only [updBuf]
      split_ifs <;> first | rfl | omega | simp_all
    · rw [if_neg hc]
      refine ⟨ldst, rfl, fun j => ?_⟩
      split_ifs <;> first | rfl | omega

lemma dmaGet_spec (glob : Nat → F) (base len : Nat) (buf : Nat → F)
    (h : len ≤ BUFFSIZE) :
    ∃ b, dmaGet glob base len buf = some b ∧
      ∀ k, b k = if k < len then glob (base + k) else buf k :=
  ⟨_, by simp [dmaGet, h], fun k => rfl⟩

lemma dmaPut_spec (buf : Nat → F) (base len : Nat) (glob : Nat → F)
    (h : len ≤ BUFFSIZE) :
    ∃ g, dmaPut buf base len glob = some g ∧
      ∀ j, g j = if base ≤ j ∧ j < base + len then buf (j - base) else glob j :=
  ⟨_, by simp [dmaPut, h], fun j => rfl⟩

/-- Full characterization of the chunk loop: it succeeds, writes
`fmul (gsrc j) alpha` to every destination index of the remaining range
`[start+off, start+lc)`, leaves every other destination index unchanged,
and does nothing at all when the range is empty. -/
lemma chunkLoop_spec (fmul : F → F → F) (alpha : F) (gsrc : Nat → F) (start lc : Nat) :
    ∀ fuel off st, lc - off < fuel →
    ∃ st2, chunkLoop fmul alpha gsrc start lc fuel off st = some st2 ∧
      (∀ j, start + off ≤ j → j < start + lc → st2.gdst j = fmul (gsrc j) alpha) ∧
      (∀ j, j < start + off ∨ start + lc ≤ j → st2.gdst j = st.gdst j) ∧
      (lc ≤ off → st2 = st) := by
  intro fuel
  induction fuel with
  | zero => intro off st hf; omega
  | succ fuel ih =>
    intro off st hf
    have hB : BUFFSIZE = 4096 := rfl
    simp only [chunkLoop]
    by_cases hfull : off + BUFFSIZE - 1 < lc
    · rw [if_pos hfull]
      obtain ⟨b, hb, hbk⟩ := dmaGet_spec gsrc (start + off) BUFFSIZE st.lsrc (Nat.le_refl _)
      rw [hb, Option.some_bind]
      obtain ⟨d1, hd1, hd1j⟩ :=
        simdLoopFull_spec fmul alpha b (BUFFSIZE + 1) 0 st.ldst ⟨0, rfl⟩ (Nat.zero_le _) (by omega)
      rw [hd1, Option.some_bind]
      obtain ⟨g1, hg1, hg1j⟩ := dmaPut_spec d1 (start + off) BUFFSIZE st.gdst (Nat.le_refl _)
      rw [hg1, Option.some_bind]
      obtain ⟨st2, hst2, hin, hout, _⟩ :=
        ih (off + BUFFSIZE) ⟨b, d1, g1, st.gets + 1, st.puts + 1⟩ (by omega)
      have hout2 : ∀ j, j < start + (off + BUFFSIZE) ∨ start + lc ≤ j →
          st2.gdst j = g1 j := hout
      refine ⟨st2, hst2, ?_, ?_, ?_⟩
      · intro j ha hb2
        by_cases hj : start + (off + BUFFSIZE) ≤ j
        · exact hin j hj hb2
        · rw [hout2 j (Or.inl (by omega)), hg1j j, if_pos ⟨ha, by omega⟩,
            hd1j (j - (start + off)), if_pos ⟨Nat.zero_le _, by omega⟩,
            hbk (j - (start + off)), if_pos (by omega)]
          have hij : start + off + (j - (start + off)) = j := by omega
          rw [hij]
      · intro j hj
        rcases hj with hj | hj
        · rw [hout2 j (Or.inl (by omega)), hg1j j, if_neg (by omega)]
        · rw [hout2 j (Or.inr hj), hg1j j, if_neg (by omega)]
      · intro hle
        exact absurd hfull (by omega)
    · rw [if_neg hfull]
      by_cases hoff : off < lc
      · rw [if_pos hoff]
        have hrem : lc - off ≤ BUFFSIZE := by omega
        obtain ⟨b, hb, hbk⟩ := dmaGet_spec gsrc (start + off) (lc - off) st.lsrc hrem
        rw [hb, Option.some_bind]
        obtain ⟨d1, i2, hd1, hi2a, hi2b, hd1j⟩ :=
          simdLoopTail_spec fmul alpha b (lc - off) hrem (BUFFSIZE + 1) 0 st.ldst
            (Nat.zero_le _) (by omega)
        rw [hd1, Option.some_bind]
        dsimp only
        obtain ⟨d2, hd2, hd2j⟩ :=
          scalarLoop_spec fmul alpha b (lc - off) hrem (BUFFSIZE + 1) i2 d1 (by omega)
        rw [hd2, Option.some_bind]
        obtain ⟨g1, hg1, hg1j⟩ := dmaPut_spec d2 (start + off) (lc - off) st.gdst hrem
        rw [hg1, Option.some_bind]
        refine ⟨⟨b, d2, g1, st.gets + 1, st.puts + 1⟩, rfl, ?_, ?_, ?_⟩
        · intro j ha hb2
          show g1 j = fmul (gsrc j) alpha
          rw [hg1j j, if_pos ⟨ha, by omega⟩, hd2j (j - (start + off))]
          have hij : start + off + (j - (start + off)) = j := by omega
          by_cases hk : i2 ≤ j - (start + off)
          · rw [if_pos ⟨hk, by omega⟩, hbk (j - (start + off)), if_pos (by omega), hij]
          · rw [if_neg (by omega), hd1j (j - (start + off)), if_pos ⟨Nat.zero_le _, by omega⟩,
              hbk (j - (start + off)), if_pos (by omega), hij]
        · intro j hj
          show g1 j = st.gdst j
          rw [hg1j j, if_neg (by omega)]
        · intro hle
          exact absurd hoff (by omega)
      · rw [if_neg hoff]
        refine ⟨st, rfl, ?_, fun j _ => rfl, fun _ => rfl⟩
        intro j ha hb2
        exact absurd hb2 (by omega)

/-- Full characterization of one worker's run of `sw_slave_sscal_f`:
it succeeds, writes `fmul (gsrc j) alpha` exactly on its own partition
`[startOffset, startOffset + localCount)`, leaves all other destination
indices unchanged, and when its partition is empty returns with the
machine state exactly as acquired (no transfer issued). -/
lemma sscal_f_spec (fmul : F → F → F) (alpha : F) (id count : Nat)
    (gsrc lsrc0 ldst0 gdst : Nat → F) :
    ∃ st, sw_slave_sscal_f fmul alpha id count gsrc lsrc0 ldst0 gdst = some st ∧
      (∀ j, startOffset count id ≤ j → j < startOffset count id + localCount count id →
        st.gdst j = fmul (gsrc j) alpha) ∧
      (∀ j, j < startOffset count id ∨ startOffset count id + localCount count id ≤ j →
        st.gdst j = gdst j) ∧
      (localCount count id = 0 → st = ⟨lsrc0, ldst0, gdst, 0, 0⟩) := by
  obtain ⟨st, hst, hin, hout, hzero⟩ :=
    chunkLoop_spec fmul alpha gsrc (startOffset count id) (localCount count id)
      (localCount count id + 1) 0 ⟨lsrc0, ldst0, gdst, 0, 0⟩ (by omega)
  refine ⟨st, hst, fun j ha hb => hin j (by omega) hb, ?_, fun h => hzero (by omega)⟩
  intro j hj
  rcases hj with hj | hj
  · exact hout j (Or.inl (by omega))
  · exact hout j (Or.inr hj)

/-- After workers `0, ..., k-1` have run, the destination holds
`fmul (gsrc j) alpha` exactly on `[0, startOffset count k)` and is
untouched from `startOffset count k` on. -/
lemma runUpTo_spec (fmul : F → F → F) (alpha : F) (count : Nat)
    (gsrc lsrc0 ldst0 gdst : Nat → F) :
    ∀ k, ∃ d, runUpTo fmul alpha count gsrc lsrc0 ldst0 k gdst = some d ∧
      (∀ j, j < startOffset count k → d j = fmul (gsrc j) alpha) ∧
      (∀ j, startOffset count k ≤ j → d j = gdst j) := by
  intro k
  induction k with
  | zero =>
    refine ⟨gdst, rfl, ?_, fun j _ => rfl⟩
    intro j hj
    rw [startOffset_zero] at hj
    omega
  | succ k ih =>
    obtain ⟨d, hd, hlt, hge⟩ := ih
    obtain ⟨st, hst, hin, hout, _⟩ := sscal_f_spec fmul alpha k count gsrc lsrc0 ldst0 d
    refine ⟨st.gdst, ?_, ?_, ?_⟩
    · simp only [runUpTo, hd, Option.some_bind, hst, Option.map_some']
    · intro j hj
      rw [startOffset_succ] at hj
      by_cases h : j < startOffset count k
      · rw [hout j (Or.inl h)]
        exact hlt j h
      · exact hin j (by omega) (by omega)
    · intro j hj
      rw [startOffset_succ] at hj
      rw [hout j (Or.inr (by omega))]
      exact hge j (by have := startOffset_succ count k; omega)

lemma exists_owner (count : Nat) :
    ∀ k j, j < startOffset count k →
      ∃ i, i < k ∧ startOffset count i ≤ j ∧
        j < startOffset count i + localCount count i := by
  intro k
  induction k with
  | zero =>
    intro j hj
    rw [startOffset_zero] at hj
    omega
  | succ k ih =>
    intro j hj
    rw [startOffset_succ] at hj
    by_cases h : j < startOffset count k
    · obtain ⟨i, hi, ha, hb⟩ := ih j h
      exact ⟨i, by omega, ha, hb⟩
    · exact ⟨k, by omega, by omega, hj⟩

/-! ## Claims -/

/-- C1: for every scalar `alpha`, every element count, and every input
vector, running `sw_slave_sscal_f` on all 64 workers of the fixed
population succeeds and leaves destination element `i` equal to
`alpha * x[i]` — the result of the single native multiply, with no
reordering — for every `i < count`.  The native single-precision multiply
is abstracted as `fmul`; the hypothesis `hc` records that IEEE-754
multiplication is commutative (the C code writes `local_src[i] * alpha`,
the claim writes `alpha * x[i]`; on the finite operands the claim ranges
over these are the same native product). -/
theorem C1_scale_correct (fmul : F → F → F) (hc : ∀ a b, fmul a b = fmul b a)
    (alpha : F) (count : Nat) (gsrc lsrc0 ldst0 gdst : Nat → F) :
    ∃ d, runAll fmul alpha count gsrc lsrc0 ldst0 gdst = some d ∧
      ∀ i, i < count → d i = fmul alpha (gsrc i) := by
  obtain ⟨d, hd, hlt, _⟩ := runUpTo_spec fmul alpha count gsrc lsrc0 ldst0 gdst SPNUM
  refine ⟨d, hd, fun i hi => ?_⟩
  rw [hlt i (by rw [startOffset_spnum]; exact hi), hc]

/-- C1 witness: `alpha = 2`, `x = [0,1,2]` over exact integer arithmetic
(the values are exactly representable in single precision). -/
theorem C1_scale_correct_witness :
    ∃ d, runAll (fun a b : Int => a * b) 2 3 (fun i => (i : Int))
        (fun _ => 0) (fun _ => 0) (fun _ => 0) = some d ∧
      ∀ i, i < 3 → d i = 2 * (i : Int) :=
  @C1_scale_correct Int (fun a b => a * b) (fun a b => Int.mul_comm a b) 2 3
    (fun i => (i : Int)) (fun _ => 0) (fun _ => 0) (fun _ => 0)

/-- C2: the partitioner (source lines 102-103) computes
`local_count = N/P + (1 if id < N mod P else 0)` and
`start_offset = id*(N/P) + min(id, N mod P)` with `P = SPNUM`, and
`local_count = 0` exactly when `N < P` and `id ≥ N`.  It is a pure
function, so it has no side effects. -/
theorem C2_partitioner (count id : Nat) :
    localCount count id = count / SPNUM + (if id < count % SPNUM then 1 else 0) ∧
    startOffset count id = id * (count / SPNUM) + min id (count % SPNUM) ∧
    (localCount count id = 0 ↔ count < SPNUM ∧ count ≤ id) := by
  refine ⟨rfl, ?_, ?_⟩
  · simp only [startOffset]
    split_ifs <;> omega
  · simp only [localCount, SPNUM]
    constructor
    · intro h0
      split_ifs at h0 <;> omega
    · intro h0
      split_ifs <;> omega

/-- C2 witness: the partitioner contract instantiated at `N = 10`,
`id = 3`. -/
theorem C2_partitioner_witness :
    localCount 10 3 = 10 / SPNUM + (if 3 < 10 % SPNUM then 1 else 0) ∧
    startOffset 10 3 = 3 * (10 / SPNUM) + min 3 (10 % SPNUM) ∧
    (localCount 10 3 = 0 ↔ 10 < SPNUM ∧ 10 ≤ 3) :=
  C2_partitioner 10 3

/-- C3: the per-worker ranges `[start_offset, start_offset+local_count)`
for `id ∈ [0, SPNUM)` are pairwise disjoint, their union is exactly
`[0, N)`, and the `N mod SPNUM` remainder elements go one each to the
lowest-indexed workers (`local_count = N/P + 1` below the remainder,
`N/P` from it on). -/
theorem C3_partition_coverage (count : Nat) :
    (∀ i1 i2 j, i1 < SPNUM → i2 < SPNUM →
      startOffset count i1 ≤ j → j < startOffset count i1 + localCount count i1 →
      startOffset count i2 ≤ j → j < startOffset count i2 + localCount count i2 →
      i1 = i2) ∧
    (∀ j, j < count ↔ ∃ i, i < SPNUM ∧ startOffset count i ≤ j ∧
      j < startOffset count i + localCount count i) ∧
    (∀ i, (i < count % SPNUM → localCount count i = count / SPNUM + 1) ∧
      (count % SPNUM ≤ i → localCount count i = count / SPNUM)) := by
  refine ⟨?_, ?_, ?_⟩
  · intro i1 i2 j h1 h2 ha1 hb1 ha2 hb2
    by_contra hne
    rcases Nat.lt_or_ge i1 i2 with h | h
    · have hs := startOffset_mono count (i1 + 1) i2 (by omega)
      rw [startOffset_succ] at hs
      omega
    · have hlt : i2 < i1 := by omega
      have hs := startOffset_mono count (i2 + 1) i1 (by omega)
      rw [startOffset_succ] at hs
      omega
  · intro j
    constructor
    · intro hj
      exact exists_owner count SPNUM j (by rw [startOffset_spnum]; exact hj)
    · rintro ⟨i, hi, ha, hb⟩
      have hs := startOffset_mono count (i + 1) SPNUM (by omega)
      rw [startOffset_succ, startOffset_spnum] at hs
      omega
  · intro i
    constructor <;> intro h <;> simp only [localCount] <;> split_ifs <;> omega

/-- C3 witness: element 7 of a 10-element vector is owned by some worker. -/
theorem C3_partition_coverage_witness :
    ∃ i, i < SPNUM ∧ startOffset 10 i ≤ 7 ∧
      7 < startOffset 10 i + localCount 10 i :=
  ((C3_partition_coverage 10).2.1 7).mp (by omega)

/-- C4 counterexample: with `count = 1`, `alpha = 2`, source element `1`,
destination initially `0`, worker 0 of `sw_slave_sscal_d` leaves the
destination element at `0`, not `alpha * source = 2`: the double-precision
entry point does not write `alpha * src[i]`, because its whole body
(source lines 26-92) is inside a block comment. -/
theorem C4_dvariant_counterexample :
    (sw_slave_sscal_d (fun a b : Int => a * b) 2 0 1 (fun _ => 1)
        (fun _ => 0) (fun _ => 0) (fun _ => 0)).map (fun st => st.gdst 0) =
      some 0 ∧ (0 : Int) ≠ 2 * 1 :=
  ⟨rfl, by decide⟩

/-- C4 amended: the two entry points do not differ only in element width
and constants — the body of `sw_slave_sscal_d` is entirely commented out,
so the double-precision entry point is a no-op that issues no transfers
and leaves the destination unchanged, while the single-precision variant
`sw_slave_sscal_f` writes `src[j] * alpha` over its worker's partition. -/
theorem C4_dvariant_noop (fmul : F → F → F) (alpha : F) (id count : Nat)
    (gsrc lsrc0 ldst0 gdst : Nat → F) :
    (∃ st, sw_slave_sscal_d fmul alpha id count gsrc lsrc0 ldst0 gdst = some st ∧
      st.gdst = gdst ∧ st.gets = 0 ∧ st.puts = 0) ∧
    (∃ st, sw_slave_sscal_f fmul alpha id count gsrc lsrc0 ldst0 gdst = some st ∧
      ∀ j, startOffset count id ≤ j → j < startOffset count id + localCount count id →
        st.gdst j = fmul (gsrc j) alpha) := by
  constructor
  · exact ⟨_, rfl, rfl, rfl, rfl⟩
  · obtain ⟨st, hst, hin, _, _⟩ := sscal_f_spec fmul alpha id count gsrc lsrc0 ldst0 gdst
    exact ⟨st, hst, hin⟩

/-- C5: a worker writes global destination indices only inside its own
range `[start_offset, start_offset+local_count)` (everything outside is
left unchanged), and reads global source indices only inside that same
range (changing the source anywhere outside the range cannot change the
worker's output). -/
theorem C5_frame_and_read_locality (fmul : F → F → F) (alpha : F) (id count : Nat)
    (gsrc gsrc2 lsrc0 ldst0 gdst : Nat → F)
    (hagree : ∀ j, startOffset count id ≤ j →
      j < startOffset count id + localCount count id → gsrc j = gsrc2 j) :
    ∃ st st2, sw_slave_sscal_f fmul alpha id count gsrc lsrc0 ldst0 gdst = some st ∧
      sw_slave_sscal_f fmul alpha id count gsrc2 lsrc0 ldst0 gdst = some st2 ∧
      (∀ j, j < startOffset count id ∨
        startOffset count id + localCount count id ≤ j → st.gdst j = gdst j) ∧
      (∀ j, st.gdst j = st2.gdst j) := by
  obtain ⟨st, hst, hin, hout, _⟩ := sscal_f_spec fmul alpha id count gsrc lsrc0 ldst0 gdst
  obtain ⟨st2, hst2, hin2, hout2, _⟩ :=
    sscal_f_spec fmul alpha id count gsrc2 lsrc0 ldst0 gdst
  refine ⟨st, st2, hst, hst2, hout, fun j => ?_⟩
  by_cases hj : startOffset count id ≤ j ∧
      j < startOffset count id + localCount count id
  · rw [hin j hj.1 hj.2, hin2 j hj.1 hj.2, hagree j hj.1 hj.2]
  · rw [hout j (by omega), hout2 j (by omega)]

/-- C5 witness: worker 0 on a 1-element vector; its range is `[0,1)`, the
two sources agree there and differ everywhere else, and the outputs
coincide while the rest of the destination keeps its initial value. -/
theorem C5_frame_witness :
    ∃ st st2, sw_slave_sscal_f (fun a b : Int => a * b) 2 0 1 (fun _ => 5)
        (fun _ => 0) (fun _ => 0) (fun _ => 0) = some st ∧
      sw_slave_sscal_f (fun a b : Int => a * b) 2 0 1
        (fun j => if j = 0 then 5 else 9)
        (fun _ => 0) (fun _ => 0) (fun _ => 0) = some st2 ∧
      (∀ j, j < startOffset 1 0 ∨ startOffset 1 0 + localCount 1 0 ≤ j →
        st.gdst j = (fun _ => (0 : Int)) j) ∧
      (∀ j, st.gdst j = st2.gdst j) :=
  C5_frame_and_read_locality (fun a b => a * b) 2 0 1 (fun _ => 5)
    (fun j => if j = 0 then 5 else 9) (fun _ => 0) (fun _ => 0) (fun _ => 0)
    (by
      intro j h1 h2
      have e1 : startOffset 1 0 = 0 := rfl
      have e2 : localCount 1 0 = 1 := rfl
      have hj : j = 0 := by omega
      subst hj
      rfl)

/-- C6: a worker whose `local_count` is zero issues no get and no put
transfer, leaves the whole destination vector unchanged (the source is
read-only throughout the embedding), and terminates successfully, its
state being exactly the one it acquired its staging buffers with. -/
theorem C6_zero_length_worker (fmul : F → F → F) (alpha : F) (id count : Nat)
    (gsrc lsrc0 ldst0 gdst : Nat → F) (h : localCount count id = 0) :
    ∃ st, sw_slave_sscal_f fmul alpha id count gsrc lsrc0 ldst0 gdst = some st ∧
      st.gets = 0 ∧ st.puts = 0 ∧ st.gdst = gdst := by
  obtain ⟨st, hst, _, _, hzero⟩ := sscal_f_spec fmul alpha id count gsrc lsrc0 ldst0 gdst
  obtain rfl := hzero h
  exact ⟨_, hst, rfl, rfl, rfl⟩

/-- C6 witness: `N = 0` gives every worker an empty partition; worker 0
performs no transfer and the destination keeps its initial contents. -/
theorem C6_zero_length_witness :
    ∃ st, sw_slave_sscal_f (fun a b : Int => a * b) 2 0 0 (fun _ => 1)
        (fun _ => 0) (fun _ => 0) (fun _ => 7) = some st ∧
      st.gets = 0 ∧ st.puts = 0 ∧ st.gdst = (fun _ => (7 : Int)) :=
  C6_zero_length_worker (fun a b => a * b) 2 0 0 (fun _ => 1)
    (fun _ => 0) (fun _ => 0) (fun _ => 7) (by decide)

/-- C7: when `N` is an exact multiple of the chunk size `BUFFSIZE`,
running the kernel on `N` elements and running it on the same data with
`N+1` elements (which exercises the tail path) produce identical
destination contents on the first `N` indices: the full-chunk SIMD path
and the tail path agree element-wise. -/
theorem C7_chunk_boundary (fmul : F → F → F) (alpha : F) (count : Nat)
    (gsrc lsrc0 ldst0 gdst : Nat → F) (h : count % BUFFSIZE = 0) :
    ∃ d d2, runAll fmul alpha count gsrc lsrc0 ldst0 gdst = some d ∧
      runAll fmul alpha (count + 1) gsrc lsrc0 ldst0 gdst = some d2 ∧
      ∀ i, i < count → d i = d2 i := by
  obtain ⟨d, hd, hlt, _⟩ := runUpTo_spec fmul alpha count gsrc lsrc0 ldst0 gdst SPNUM
  obtain ⟨d2, hd2, hlt2, _⟩ :=
    runUpTo_spec fmul alpha (count + 1) gsrc lsrc0 ldst0 gdst SPNUM
  refine ⟨d, d2, hd, hd2, fun i hi => ?_⟩
  rw [hlt i (by rw [startOffset_spnum]; exact hi),
    hlt2 i (by rw [startOffset_spnum]; omega)]

/-- C7 witness: `N = BUFFSIZE = 4096`, one exact chunk, against `N+1`. -/
theorem C7_chunk_boundary_witness :
    ∃ d d2, runAll (fun a b : Int => a * b) 3 BUFFSIZE (fun i => (i : Int))
        (fun _ => 0) (fun _ => 0) (fun _ => 0) = some d ∧
      runAll (fun a b : Int => a * b) 3 (BUFFSIZE + 1) (fun i => (i : Int))
        (fun _ => 0) (fun _ => 0) (fun _ => 0) = some d2 ∧
      ∀ i, i < BUFFSIZE → d i = d2 i :=
  C7_chunk_boundary (fun a b => a * b) 3 BUFFSIZE (fun i => (i : Int))
    (fun _ => 0) (fun _ => 0) (fun _ => 0) (by decide)

/-- C8: the kernel retains no state across invocations — running it a
second time with the same descriptor (same source, same scalar, same
count) over the destination produced by the first run reproduces exactly
that destination. -/
theorem C8_rerun_idempotent (fmul : F → F → F) (alpha : F) (count : Nat)
    (gsrc lsrc0 ldst0 gdst : Nat → F) :
    ∃ d, runAll fmul alpha count gsrc lsrc0 ldst0 gdst = some d ∧
      runAll fmul alpha count gsrc lsrc0 ldst0 d = some d := by
  obtain ⟨d, hd, hlt, hge⟩ := runUpTo_spec fmul alpha count gsrc lsrc0 ldst0 gdst SPNUM
  obtain ⟨d2, hd2, hlt2, hge2⟩ := runUpTo_spec fmul alpha count gsrc lsrc0 ldst0 d SPNUM
  have hdd : d2 = d := by
    funext j
    by_cases hj : j < startOffset count SPNUM
    · rw [hlt2 j hj, hlt j hj]
    · exact hge2 j (by omega)
  rw [hdd] at hd2
  exact ⟨d, hd, hd2⟩

/-- C9 counterexample: the worker population is the compile-time constant
`SPNUM = 64`, not 4, and with `N = 10` the code's partitioner gives
worker 0 `local_count = 1` (not 3) and worker 1 `start_offset = 1`
(not 3). -/
theorem C9_scenario_counterexample :
    SPNUM = 64 ∧ SPNUM ≠ 4 ∧ localCount 10 0 = 1 ∧ localCount 10 0 ≠ 3 ∧
      startOffset 10 1 = 1 ∧ startOffset 10 1 ≠ 3 := by
  decide

/-- C9 amended: with the code's fixed population `SPNUM = 64` and
`N = 10`, workers `0..9` each receive one element (`local_count = 1`,
`start_offset = id`) and workers `10..63` receive none, and the kernel
with `alpha = 2` on `x = [0..9]` leaves the destination equal to
`[0,2,4,...,18]` (values exact in single precision, modeled over `Int`). -/
theorem C9_scenario_amended :
    (∀ id, id < SPNUM → localCount 10 id = if id < 10 then 1 else 0) ∧
    (∀ id, id < SPNUM → startOffset 10 id = min id 10) ∧
    (runAll (fun a b : Int => a * b) 2 10 (fun i => (i : Int))
        (fun _ => 0) (fun _ => 0) (fun _ => 0)).map
      (fun d => (List.range 10).map d) =
      some [0, 2, 4, 6, 8, 10, 12, 14, 16, 18] := by
  refine ⟨by decide, by decide, by decide⟩

/-- C10: every staging-buffer access of `sw_slave_sscal_f` is in bounds:
all reads of `local_src` and writes of `local_dst` use indices in
`[0, BUFFSIZE)` and all DMA transfers fit in the buffers, so the
bounds-checked (`Option`-valued) embedding never hits an error branch,
for every count and every worker id. -/
theorem C10_staging_in_bounds (fmul : F → F → F) (alpha : F) (id count : Nat)
    (gsrc lsrc0 ldst0 gdst : Nat → F) :
    (sw_slave_sscal_f fmul alpha id count gsrc lsrc0 ldst0 gdst).isSome = true := by
  obtain ⟨st, hst, _, _, _⟩ := sscal_f_spec fmul alpha id count gsrc lsrc0 ldst0 gdst
  rw [hst]
  rfl

end SWSscal
